import Mathlib

/-!
Verification of the Ising model Monte Carlo simulator (src/Ising.py).

The lattice is modelled as a total function from integer coordinates to
integer spin values; the simulator only ever reads and writes coordinates
in the range [0, N) after wrapping with the Python modulus, which on
integers coincides with Lean's Int.emod (result in [0, N) for N > 0).
Randomness is modelled by oracle streams: a stream of drawn sites
(rng.randint pairs) and a stream of uniform draws (rng.rand), consumed
lazily exactly as in the source.  The Metropolis acceptance test compares
a uniform draw against Real.exp, so the single-trial update is modelled
as a step relation on the simulation state.
-/

set_option autoImplicit false

namespace Ising

/-- Lattice state: the numpy array self.state, as a total map from integer
coordinates to spin values.  The simulator only accesses indices in
[0, N) x [0, N). -/
abbrev Lattice := ℤ → ℤ → ℤ

/-- init_lattice (src/Ising.py line 79): each cell is 2 * b - 1 where b is a
0/1 draw from rng.randint(2); the draws are supplied as an oracle stream of
bits. -/
def init_lattice (bits : ℤ → ℤ → Fin 2) : Lattice :=
  fun x y => 2 * ((bits x y : ℕ) : ℤ) - 1

/-- The neighbor-spin sum read at site (x, y) (src/Ising.py lines 113 and
145): stt[(x+1)%N, y] + stt[(x-1)%N, y] + stt[x, (y+1)%N] + stt[x, (y-1)%N].
Lean's % on ℤ is Int.emod, which agrees with the Python % operator. -/
def sum_neig_spins (N : ℤ) (stt : Lattice) (x y : ℤ) : ℤ :=
  stt ((x + 1) % N) y + stt ((x - 1) % N) y + stt x ((y + 1) % N) + stt x ((y - 1) % N)

/-- get_state_magnetization (src/Ising.py line 135): np.sum(self.state), the
sum of all cells of the N x N array. -/
def get_state_magnetization (N : ℤ) (stt : Lattice) : ℤ :=
  ∑ x in Finset.Ico (0 : ℤ) N, ∑ y in Finset.Ico (0 : ℤ) N, stt x y

/-- get_state_energy (src/Ising.py lines 137-150): accumulate
2 * spin * sum_neig_spins over the double loop for x in range(N), for y in
range(N); multiply by J; return e / 4.  The Python / is exact true division,
modelled in ℚ. -/
def get_state_energy (N : ℤ) (J : ℚ) (stt : Lattice) : ℚ :=
  (((∑ x in Finset.Ico (0 : ℤ) N, ∑ y in Finset.Ico (0 : ℤ) N,
      2 * stt x y * sum_neig_spins N stt x y : ℤ) : ℚ) * J) / 4

/-- The in-place update self.state[x, y] *= -1 (src/Ising.py lines 118 and
120): negate the cell at (x, y), leave every other cell unchanged. -/
def flipAt (stt : Lattice) (x y : ℤ) : Lattice :=
  fun i j => if i = x ∧ j = y then -stt i j else stt i j

/-- The energy change dE = 2 * J * spin * sum_neig_spins computed at line 115
of src/Ising.py. -/
def dE (J : ℚ) (N : ℤ) (stt : Lattice) (x y : ℤ) : ℚ :=
  2 * J * ((stt x y : ℤ) : ℚ) * ((sum_neig_spins N stt x y : ℤ) : ℚ)

/-- Simulation state threaded through the Monte Carlo loop: the lattice
self.state, the elapsed-sweep counter self.mcs, and cursors into the two
random oracle streams (next unread site draw, next unread uniform draw). -/
structure SimState where
  state : Lattice
  mcs : ℕ
  siteIdx : ℕ
  unifIdx : ℕ

attribute [ext] SimState

/-- One iteration of the inner loop of _do_monte_carlo_step (src/Ising.py
lines 109-120), as a step relation.  The trial reads one site (x, y) from the
site stream; if dE < 0 the spin is flipped (no uniform draw is consumed);
otherwise one uniform draw u is consumed and the spin is flipped exactly when
u < exp(-dE / T); otherwise the state is unchanged.  self.mcs is never
touched. -/
def trialStep (N : ℤ) (J T : ℚ) (sites : ℕ → ℤ × ℤ) (unifs : ℕ → ℚ)
    (s s' : SimState) : Prop :=
  s'.mcs = s.mcs ∧
  s'.siteIdx = s.siteIdx + 1 ∧
  ((dE J N s.state (sites s.siteIdx).1 (sites s.siteIdx).2 < 0 ∧
      s'.unifIdx = s.unifIdx ∧
      s'.state = flipAt s.state (sites s.siteIdx).1 (sites s.siteIdx).2) ∨
   (¬ dE J N s.state (sites s.siteIdx).1 (sites s.siteIdx).2 < 0 ∧
      s'.unifIdx = s.unifIdx + 1 ∧
      (((unifs s.unifIdx : ℚ) : ℝ) <
          Real.exp (((- dE J N s.state (sites s.siteIdx).1 (sites s.siteIdx).2 / T : ℚ) : ℝ)) ∧
        s'.state = flipAt s.state (sites s.siteIdx).1 (sites s.siteIdx).2 ∨
       ¬ ((unifs s.unifIdx : ℚ) : ℝ) <
          Real.exp (((- dE J N s.state (sites s.siteIdx).1 (sites s.siteIdx).2 / T : ℚ) : ℝ)) ∧
        s'.state = s.state)))

/-- n successive Monte Carlo trials, chained sequentially. -/
def trials (N : ℤ) (J T : ℚ) (sites : ℕ → ℤ × ℤ) (unifs : ℕ → ℚ) :
    ℕ → SimState → SimState → Prop
  | 0 => fun s s' => s' = s
  | n + 1 => fun s s'' => ∃ s', trialStep N J T sites unifs s s' ∧
      trials N J T sites unifs n s' s''

/-- do_mcs / _do_monte_carlo_step (src/Ising.py lines 103-121 and 131-132):
the double loop for i in range(N), for j in range(N) performs
N.toNat * N.toNat trials (range(N) is empty for N <= 0).  do_mcs only calls
_do_monte_carlo_step; neither method modifies self.mcs. -/
def do_mcs (N : ℤ) (J T : ℚ) (sites : ℕ → ℤ × ℤ) (unifs : ℕ → ℚ)
    (s s' : SimState) : Prop :=
  trials N J T sites unifs (N.toNat * N.toNat) s s'

/-- k successive calls of do_mcs. -/
def doSweeps (N : ℤ) (J T : ℚ) (sites : ℕ → ℤ × ℤ) (unifs : ℕ → ℚ) :
    ℕ → SimState → SimState → Prop
  | 0 => fun s s' => s' = s
  | k + 1 => fun s s'' => ∃ s', do_mcs N J T sites unifs s s' ∧
      doSweeps N J T sites unifs k s' s''

/-- Errors relevant to engine construction: the InvalidConfiguration error
named by the specification (never raised by the code), and the ValueError
numpy raises when rng.randint is asked for an array with negative
dimensions. -/
inductive ConstructError where
  | invalidConfiguration
  | valueError
deriving DecidableEq

/-- The lattice draw performed at construction (src/Ising.py line 23 calling
lines 78-79): rng.randint(2, size=(N, N)) raises ValueError when N is
negative (numpy rejects negative array dimensions); for N greater than or
equal to 0 it returns the lattice of 2 * b - 1 cells, the N = 0 case being
the empty 0 x 0 array. -/
def init_lattice_checked (N : ℤ) (bits : ℤ → ℤ → Fin 2) :
    Except ConstructError Lattice :=
  if N < 0 then .error .valueError else .ok (init_lattice bits)

/-- The engine attributes set by IsingModel.init that the core simulation
uses: self.N, self.T, self.J, self.mt, self.state, self.mcs
(src/Ising.py lines 19-24). -/
structure IsingModel where
  N : ℤ
  T : ℚ
  J : ℚ
  mt : ℤ
  state : Lattice
  mcs : ℕ

/-- IsingModel.init (src/Ising.py lines 13-76), restricted to the core
attributes (file saving, directory creation and plotting are out-of-scope
I/O).  The constructor body contains no validation of dim or temperature and
no raise statement of its own; the only failure is the ValueError
propagating out of the lattice draw on line 23 when dim is negative.  The
codomain is Except so that the error-handling claims of the specification
can be stated. -/
def construct (dim : ℤ) (contact_energy temperature : ℚ) (max_sim_time : ℤ)
    (bits : ℤ → ℤ → Fin 2) : Except ConstructError IsingModel :=
  match init_lattice_checked dim bits with
  | .error e => .error e
  | .ok stt =>
      .ok { N := dim, T := temperature, J := contact_energy, mt := max_sim_time,
            state := stt, mcs := 0 }

/-- Sum over the 2 * N * N nearest-neighbor bonds of the periodic lattice of
the product of the two endpoint spins: each site contributes its bond to the
right, (x, y)-((x+1)%N, y), and its bond upward, (x, y)-(x, (y+1)%N). -/
def bondSum (N : ℤ) (stt : Lattice) : ℤ :=
  ∑ x in Finset.Ico (0 : ℤ) N, ∑ y in Finset.Ico (0 : ℤ) N,
    stt x y * (stt ((x + 1) % N) y + stt x ((y + 1) % N))

/-- Every cell is plus one or minus one. -/
def SpinPM1 (stt : Lattice) : Prop := ∀ x y : ℤ, stt x y = 1 ∨ stt x y = -1

/-! ### Helper lemmas about the Python modulus (Int.emod) -/

lemma emod_bounds (N z : ℤ) (hN : 0 < N) : 0 ≤ z % N ∧ z % N < N :=
  ⟨Int.emod_nonneg z (ne_of_gt hN), Int.emod_lt_of_pos z hN⟩

lemma emod_succ_eq (N x : ℤ) (h0 : 0 ≤ x) (hx : x < N) :
    (x + 1) % N = if x = N - 1 then 0 else x + 1 := by
  by_cases h : x = N - 1
  · subst h
    simp [Int.emod_self]
  · rw [if_neg h]
    exact Int.emod_eq_of_lt (by omega) (by omega)

lemma emod_pred_eq (N x : ℤ) (h0 : 0 ≤ x) (hx : x < N) :
    (x - 1) % N = if x = 0 then N - 1 else x - 1 := by
  by_cases h : x = 0
  · subst h
    rw [if_pos rfl]
    have h1 : (0 - 1 : ℤ) % N = (0 - 1 + N * 1) % N := (Int.add_mul_emod_self_left (0 - 1) N 1).symm
    rw [h1]
    have h2 : (0 - 1 + N * 1 : ℤ) = N - 1 := by ring
    rw [h2]
    exact Int.emod_eq_of_lt (by omega) (by omega)
  · rw [if_neg h]
    exact Int.emod_eq_of_lt (by omega) (by omega)

/-- Shifting by any constant and wrapping with the Python modulus permutes
the index range [0, N). -/
lemma sum_Ico_emod_shift (N c : ℤ) (f : ℤ → ℤ) :
    ∑ x in Finset.Ico (0 : ℤ) N, f ((x + c) % N) = ∑ x in Finset.Ico (0 : ℤ) N, f x := by
  refine Finset.sum_nbij' (fun x => (x + c) % N) (fun x => (x - c) % N) ?_ ?_ ?_ ?_ ?_
  · intro a ha
    rw [Finset.mem_Ico] at ha ⊢
    exact emod_bounds N (a + c) (by omega)
  · intro a ha
    rw [Finset.mem_Ico] at ha ⊢
    exact emod_bounds N (a - c) (by omega)
  · intro a ha
    rw [Finset.mem_Ico] at ha
    show ((a + c) % N - c) % N = a
    have h1 : ((a + c) % N - c) % N = ((a + c) % N % N - c % N) % N := Int.sub_emod _ _ _
    have h2 : ((a + c) - c) % N = ((a + c) % N - c % N) % N := Int.sub_emod _ _ _
    rw [Int.emod_emod_of_dvd _ dvd_rfl] at h1
    have h3 : (a + c - c : ℤ) = a := by ring
    rw [h1, ← h2, h3]
    exact Int.emod_eq_of_lt ha.1 ha.2
  · intro a ha
    rw [Finset.mem_Ico] at ha
    show ((a - c) % N + c) % N = a
    have h1 : ((a - c) % N + c) % N = ((a - c) % N % N + c % N) % N := Int.add_emod _ _ _
    have h2 : ((a - c) + c) % N = ((a - c) % N + c % N) % N := Int.add_emod _ _ _
    rw [Int.emod_emod_of_dvd _ dvd_rfl] at h1
    have h3 : (a - c + c : ℤ) = a := by ring
    rw [h1, ← h2, h3]
    exact Int.emod_eq_of_lt ha.1 ha.2
  · intro a ha
    rfl

/-- On indices already in [0, N), wrapping is the identity; variant of the
shift lemma used to undo a shift composed with its inverse. -/
lemma emod_shift_inv (N a c : ℤ) (ha : a ∈ Finset.Ico (0 : ℤ) N) :
    ((a + c) % N - c) % N = a := by
  rw [Finset.mem_Ico] at ha
  have h1 : ((a + c) % N - c) % N = ((a + c) % N % N - c % N) % N := Int.sub_emod _ _ _
  have h2 : ((a + c) - c) % N = ((a + c) % N - c % N) % N := Int.sub_emod _ _ _
  rw [Int.emod_emod_of_dvd _ dvd_rfl] at h1
  have h3 : (a + c - c : ℤ) = a := by ring
  rw [h1, ← h2, h3]
  exact Int.emod_eq_of_lt ha.1 ha.2

/-! ### The energy accumulator counts every bond four times -/

lemma sum_left_col (N y : ℤ) (stt : Lattice) :
    ∑ x in Finset.Ico (0 : ℤ) N, stt x y * stt ((x - 1) % N) y
      = ∑ x in Finset.Ico (0 : ℤ) N, stt x y * stt ((x + 1) % N) y := by
  have h := sum_Ico_emod_shift N 1 (fun t => stt t y * stt ((t - 1) % N) y)
  calc ∑ x in Finset.Ico (0 : ℤ) N, stt x y * stt ((x - 1) % N) y
      = ∑ x in Finset.Ico (0 : ℤ) N, stt ((x + 1) % N) y * stt (((x + 1) % N - 1) % N) y :=
        h.symm
    _ = ∑ x in Finset.Ico (0 : ℤ) N, stt x y * stt ((x + 1) % N) y := by
        refine Finset.sum_congr rfl fun a ha => ?_
        rw [emod_shift_inv N a 1 ha, mul_comm]

lemma sum_down_row (N x : ℤ) (stt : Lattice) :
    ∑ y in Finset.Ico (0 : ℤ) N, stt x y * stt x ((y - 1) % N)
      = ∑ y in Finset.Ico (0 : ℤ) N, stt x y * stt x ((y + 1) % N) := by
  have h := sum_Ico_emod_shift N 1 (fun t => stt x t * stt x ((t - 1) % N))
  calc ∑ y in Finset.Ico (0 : ℤ) N, stt x y * stt x ((y - 1) % N)
      = ∑ y in Finset.Ico (0 : ℤ) N, stt x ((y + 1) % N) * stt x (((y + 1) % N - 1) % N) :=
        h.symm
    _ = ∑ y in Finset.Ico (0 : ℤ) N, stt x y * stt x ((y + 1) % N) := by
        refine Finset.sum_congr rfl fun a ha => ?_
        rw [emod_shift_inv N a 1 ha, mul_comm]

lemma sum_left_eq_sum_right (N : ℤ) (stt : Lattice) :
    (∑ x in Finset.Ico (0 : ℤ) N, ∑ y in Finset.Ico (0 : ℤ) N, stt x y * stt ((x - 1) % N) y)
      = ∑ x in Finset.Ico (0 : ℤ) N, ∑ y in Finset.Ico (0 : ℤ) N, stt x y * stt ((x + 1) % N) y := by
  rw [Finset.sum_comm]
  rw [show (∑ x in Finset.Ico (0 : ℤ) N, ∑ y in Finset.Ico (0 : ℤ) N,
      stt x y * stt ((x + 1) % N) y)
        = ∑ y in Finset.Ico (0 : ℤ) N, ∑ x in Finset.Ico (0 : ℤ) N,
            stt x y * stt ((x + 1) % N) y from Finset.sum_comm]
  exact Finset.sum_congr rfl fun y _ => sum_left_col N y stt

lemma sum_down_eq_sum_up (N : ℤ) (stt : Lattice) :
    (∑ x in Finset.Ico (0 : ℤ) N, ∑ y in Finset.Ico (0 : ℤ) N, stt x y * stt x ((y - 1) % N))
      = ∑ x in Finset.Ico (0 : ℤ) N, ∑ y in Finset.Ico (0 : ℤ) N, stt x y * stt x ((y + 1) % N) :=
  Finset.sum_congr rfl fun x _ => sum_down_row N x stt

lemma bondSum_split (N : ℤ) (stt : Lattice) :
    bondSum N stt
      = (∑ x in Finset.Ico (0 : ℤ) N, ∑ y in Finset.Ico (0 : ℤ) N, stt x y * stt ((x + 1) % N) y)
        + ∑ x in Finset.Ico (0 : ℤ) N, ∑ y in Finset.Ico (0 : ℤ) N, stt x y * stt x ((y + 1) % N) := by
  unfold bondSum
  rw [← Finset.sum_add_distrib]
  refine Finset.sum_congr rfl fun x _ => ?_
  rw [← Finset.sum_add_distrib]
  refine Finset.sum_congr rfl fun y _ => ?_
  ring

lemma accum_split (N : ℤ) (stt : Lattice) :
    (∑ x in Finset.Ico (0 : ℤ) N, ∑ y in Finset.Ico (0 : ℤ) N,
        2 * stt x y * sum_neig_spins N stt x y)
      = 2 * (∑ x in Finset.Ico (0 : ℤ) N, ∑ y in Finset.Ico (0 : ℤ) N,
              stt x y * stt ((x + 1) % N) y)
        + 2 * (∑ x in Finset.Ico (0 : ℤ) N, ∑ y in Finset.Ico (0 : ℤ) N,
              stt x y * stt ((x - 1) % N) y)
        + 2 * (∑ x in Finset.Ico (0 : ℤ) N, ∑ y in Finset.Ico (0 : ℤ) N,
              stt x y * stt x ((y + 1) % N))
        + 2 * (∑ x in Finset.Ico (0 : ℤ) N, ∑ y in Finset.Ico (0 : ℤ) N,
              stt x y * stt x ((y - 1) % N)) := by
  have h : ∀ x ∈ Finset.Ico (0 : ℤ) N,
      (∑ y in Finset.Ico (0 : ℤ) N, 2 * stt x y * sum_neig_spins N stt x y)
        = (∑ y in Finset.Ico (0 : ℤ) N,
            (2 * (stt x y * stt ((x + 1) % N) y) + 2 * (stt x y * stt ((x - 1) % N) y)
              + 2 * (stt x y * stt x ((y + 1) % N)) + 2 * (stt x y * stt x ((y - 1) % N)))) := by
    intro x _
    refine Finset.sum_congr rfl fun y _ => ?_
    unfold sum_neig_spins
    ring
  rw [Finset.sum_congr rfl h]
  simp only [Finset.sum_add_distrib, Finset.mul_sum]

/-- The pre-division accumulator of get_state_energy equals four times the
sum over the 2 N^2 nearest-neighbor bonds of the spin products. -/
lemma accum_eq_four_bondSum (N : ℤ) (stt : Lattice) :
    (∑ x in Finset.Ico (0 : ℤ) N, ∑ y in Finset.Ico (0 : ℤ) N,
        2 * stt x y * sum_neig_spins N stt x y)
      = 4 * bondSum N stt := by
  rw [accum_split, sum_left_eq_sum_right, sum_down_eq_sum_up, bondSum_split]
  ring

/-! ### Spin-domain and step-relation helper lemmas -/

lemma spinPM1_init (bits : ℤ → ℤ → Fin 2) : SpinPM1 (init_lattice bits) := by
  intro x y
  show 2 * ((bits x y : ℕ) : ℤ) - 1 = 1 ∨ 2 * ((bits x y : ℕ) : ℤ) - 1 = -1
  have hlt : ((bits x y : ℕ)) < 2 := (bits x y).is_lt
  have h : ((bits x y : ℕ)) = 0 ∨ ((bits x y : ℕ)) = 1 := by omega
  rcases h with h | h <;> rw [h] <;> norm_num

lemma spinPM1_flipAt {stt : Lattice} (h : SpinPM1 stt) (x y : ℤ) :
    SpinPM1 (flipAt stt x y) := by
  intro i j
  unfold flipAt
  by_cases hij : i = x ∧ j = y
  · rw [if_pos hij]
    rcases h i j with h1 | h1 <;> rw [h1] <;> norm_num
  · rw [if_neg hij]
    exact h i j

lemma trialStep_state {N : ℤ} {J T : ℚ} {sites : ℕ → ℤ × ℤ} {unifs : ℕ → ℚ}
    {s s' : SimState} (h : trialStep N J T sites unifs s s') :
    s'.state = flipAt s.state (sites s.siteIdx).1 (sites s.siteIdx).2 ∨ s'.state = s.state := by
  rcases h.2.2 with ⟨_, _, hst⟩ | ⟨_, _, ⟨_, hst⟩ | ⟨_, hst⟩⟩
  · exact Or.inl hst
  · exact Or.inl hst
  · exact Or.inr hst

lemma trialStep_spin {N : ℤ} {J T : ℚ} {sites : ℕ → ℤ × ℤ} {unifs : ℕ → ℚ}
    {s s' : SimState} (h : trialStep N J T sites unifs s s') (hs : SpinPM1 s.state) :
    SpinPM1 s'.state := by
  rcases trialStep_state h with h1 | h1 <;> rw [h1]
  · exact spinPM1_flipAt hs _ _
  · exact hs

lemma trialStep_det {N : ℤ} {J T : ℚ} {sites : ℕ → ℤ × ℤ} {unifs : ℕ → ℚ}
    {s a b : SimState} (ha : trialStep N J T sites unifs s a)
    (hb : trialStep N J T sites unifs s b) : a = b := by
  obtain ⟨ham, has, hacase⟩ := ha
  obtain ⟨hbm, hbs, hbcase⟩ := hb
  have hmain : a.state = b.state ∧ a.unifIdx = b.unifIdx := by
    rcases hacase with ⟨hd, hu, hst⟩ | ⟨hd, hu, hin⟩
    · rcases hbcase with ⟨hd2, hu2, hst2⟩ | ⟨hd2, hu2, hin2⟩
      · exact ⟨hst.trans hst2.symm, hu.trans hu2.symm⟩
      · exact absurd hd hd2
    · rcases hbcase with ⟨hd2, hu2, hst2⟩ | ⟨hd2, hu2, hin2⟩
      · exact absurd hd2 hd
      · refine ⟨?_, hu.trans hu2.symm⟩
        rcases hin with ⟨hc, hst⟩ | ⟨hc, hst⟩
        · rcases hin2 with ⟨hc2, hst2⟩ | ⟨hc2, hst2⟩
          · exact hst.trans hst2.symm
          · exact absurd hc hc2
        · rcases hin2 with ⟨hc2, hst2⟩ | ⟨hc2, hst2⟩
          · exact absurd hc2 hc
          · exact hst.trans hst2.symm
  exact SimState.ext hmain.1 (ham.trans hbm.symm) (has.trans hbs.symm) hmain.2

lemma trials_mcs {N : ℤ} {J T : ℚ} {sites : ℕ → ℤ × ℤ} {unifs : ℕ → ℚ} :
    ∀ {n : ℕ} {s s' : SimState}, trials N J T sites unifs n s s' → s'.mcs = s.mcs := by
  intro n
  induction n with
  | zero => intro s s' h; rw [h]
  | succ n ih =>
      intro s s' h
      obtain ⟨m, hm, hrest⟩ := h
      rw [ih hrest, hm.1]

lemma trials_siteIdx {N : ℤ} {J T : ℚ} {sites : ℕ → ℤ × ℤ} {unifs : ℕ → ℚ} :
    ∀ {n : ℕ} {s s' : SimState},
      trials N J T sites unifs n s s' → s'.siteIdx = s.siteIdx + n := by
  intro n
  induction n with
  | zero => intro s s' h; rw [h]; omega
  | succ n ih =>
      intro s s' h
      obtain ⟨m, hm, hrest⟩ := h
      have h1 := ih hrest
      have h2 := hm.2.1
      omega

lemma trials_spin {N : ℤ} {J T : ℚ} {sites : ℕ → ℤ × ℤ} {unifs : ℕ → ℚ} :
    ∀ {n : ℕ} {s s' : SimState},
      trials N J T sites unifs n s s' → SpinPM1 s.state → SpinPM1 s'.state := by
  intro n
  induction n with
  | zero => intro s s' h hs; rw [h]; exact hs
  | succ n ih =>
      intro s s' h hs
      obtain ⟨m, hm, hrest⟩ := h
      exact ih hrest (trialStep_spin hm hs)

lemma trials_det {N : ℤ} {J T : ℚ} {sites : ℕ → ℤ × ℤ} {unifs : ℕ → ℚ} :
    ∀ {n : ℕ} {s a b : SimState},
      trials N J T sites unifs n s a → trials N J T sites unifs n s b → a = b := by
  intro n
  induction n with
  | zero => intro s a b ha hb; rw [ha, hb]
  | succ n ih =>
      intro s a b ha hb
      obtain ⟨m1, h1, r1⟩ := ha
      obtain ⟨m2, h2, r2⟩ := hb
      have hm : m1 = m2 := trialStep_det h1 h2
      subst hm
      exact ih r1 r2

lemma doSweeps_mcs {N : ℤ} {J T : ℚ} {sites : ℕ → ℤ × ℤ} {unifs : ℕ → ℚ} :
    ∀ {k : ℕ} {s s' : SimState}, doSweeps N J T sites unifs k s s' → s'.mcs = s.mcs := by
  intro k
  induction k with
  | zero => intro s s' h; rw [h]
  | succ k ih =>
      intro s s' h
      obtain ⟨m, hm, hrest⟩ := h
      rw [ih hrest, trials_mcs hm]

lemma doSweeps_spin {N : ℤ} {J T : ℚ} {sites : ℕ → ℤ × ℤ} {unifs : ℕ → ℚ} :
    ∀ {k : ℕ} {s s' : SimState},
      doSweeps N J T sites unifs k s s' → SpinPM1 s.state → SpinPM1 s'.state := by
  intro k
  induction k with
  | zero => intro s s' h hs; rw [h]; exact hs
  | succ k ih =>
      intro s s' h hs
      obtain ⟨m, hm, hrest⟩ := h
      exact ih hrest (trials_spin hm hs)

lemma doSweeps_det {N : ℤ} {J T : ℚ} {sites : ℕ → ℤ × ℤ} {unifs : ℕ → ℚ} :
    ∀ {k : ℕ} {s a b : SimState},
      doSweeps N J T sites unifs k s a → doSweeps N J T sites unifs k s b → a = b := by
  intro k
  induction k with
  | zero => intro s a b ha hb; rw [ha, hb]
  | succ k ih =>
      intro s a b ha hb
      obtain ⟨m1, h1, r1⟩ := ha
      obtain ⟨m2, h2, r2⟩ := hb
      have hm : m1 = m2 := trials_det h1 h2
      subst hm
      exact ih r1 r2

lemma magnetization_abs_le (N : ℤ) (stt : Lattice) (hN : 0 ≤ N) (hs : SpinPM1 stt) :
    |get_state_magnetization N stt| ≤ N * N := by
  unfold get_state_magnetization
  have habs : ∀ x y : ℤ, |stt x y| = 1 := by
    intro x y
    rcases hs x y with h | h <;> rw [h] <;> norm_num
  have hcard : (((Finset.Ico (0 : ℤ) N).card : ℕ) : ℤ) = N := by
    rw [Int.card_Ico, sub_zero, Int.toNat_of_nonneg hN]
  calc |∑ x in Finset.Ico (0 : ℤ) N, ∑ y in Finset.Ico (0 : ℤ) N, stt x y|
      ≤ ∑ x in Finset.Ico (0 : ℤ) N, |∑ y in Finset.Ico (0 : ℤ) N, stt x y| :=
        Finset.abs_sum_le_sum_abs _ _
    _ ≤ ∑ _x in Finset.Ico (0 : ℤ) N, N := by
        refine Finset.sum_le_sum fun x _ => ?_
        calc |∑ y in Finset.Ico (0 : ℤ) N, stt x y|
            ≤ ∑ y in Finset.Ico (0 : ℤ) N, |stt x y| := Finset.abs_sum_le_sum_abs _ _
          _ = ∑ _y in Finset.Ico (0 : ℤ) N, (1 : ℤ) :=
              Finset.sum_congr rfl fun y _ => habs x y
          _ = N := by rw [Finset.sum_const, nsmul_eq_mul, mul_one, hcard]
    _ = N * N := by rw [Finset.sum_const, nsmul_eq_mul, hcard]

/-! ### A concrete one-trial run used to witness the relational theorems -/

/-- Constant site stream: every draw is the site (0, 0). -/
def csites : ℕ → ℤ × ℤ := fun _ => (0, 0)

/-- Constant uniform stream: every draw is 1 (so probabilistic flips are
always rejected, since every acceptance probability is at most 1 and the
comparison is strict). -/
def cunifs : ℕ → ℚ := fun _ => 1

/-- Fresh simulation state on the all-plus-one 1 x 1 lattice. -/
def cs0 : SimState :=
  { state := fun _ _ => 1, mcs := 0, siteIdx := 0, unifIdx := 0 }

/-- The state after one rejected trial: lattice unchanged, both stream
cursors advanced by one, sweep counter untouched. -/
def cs1 : SimState :=
  { state := fun _ _ => 1, mcs := 0, siteIdx := 1, unifIdx := 1 }

lemma dE_cs0 : dE 1 1 cs0.state (csites cs0.siteIdx).1 (csites cs0.siteIdx).2 = 8 := by
  show dE 1 1 (fun _ _ => 1) 0 0 = 8
  unfold dE sum_neig_spins
  norm_num

lemma trialStep_concrete : trialStep 1 1 1 csites cunifs cs0 cs1 := by
  refine ⟨rfl, rfl, Or.inr ⟨?_, rfl, Or.inr ⟨?_, rfl⟩⟩⟩
  · rw [dE_cs0]
    norm_num
  · rw [dE_cs0]
    show ¬ ((cunifs cs0.unifIdx : ℚ) : ℝ) < Real.exp (((-8 / 1 : ℚ) : ℝ))
    have h1 : ((cunifs cs0.unifIdx : ℚ) : ℝ) = 1 := by norm_num [cunifs]
    have h3 : (((-8 / 1 : ℚ)) : ℝ) = -8 := by norm_num
    rw [h1, h3]
    have h4 : Real.exp (-8) < 1 := Real.exp_lt_one_iff.mpr (by norm_num)
    exact not_lt.mpr h4.le

lemma do_mcs_concrete : do_mcs 1 1 1 csites cunifs cs0 cs1 := by
  show trials 1 1 1 csites cunifs 1 cs0 cs1
  exact ⟨cs1, trialStep_concrete, rfl⟩

lemma doSweeps_concrete : doSweeps 1 1 1 csites cunifs 1 cs0 cs1 :=
  ⟨cs1, do_mcs_concrete, rfl⟩

/-- Constant bit stream for a concrete initial lattice (every cell +1). -/
def cbits : ℤ → ℤ → Fin 2 := fun _ _ => 1

/-- Fresh engine simulation state built from that bit stream. -/
def cInit : SimState :=
  { state := init_lattice cbits, mcs := 0, siteIdx := 0, unifIdx := 0 }

/-! ### Claim theorems -/

/-- Claim C1: in each trial of a sweep, with s the spin at the drawn site
(x, y) and Sigma the sum of its four periodic neighbor spins, the energy
change is computed as dE = 2 * J * s * Sigma; if dE < 0 the spin is flipped
unconditionally, otherwise it is flipped exactly when the uniform draw is
strictly less than exp(-dE / T), and otherwise the spin is left
unchanged. -/
theorem trialStep_metropolis (N : ℤ) (J T : ℚ) (sites : ℕ → ℤ × ℤ) (unifs : ℕ → ℚ)
    (s s' : SimState) (x y : ℤ) (hxy : sites s.siteIdx = (x, y))
    (h : trialStep N J T sites unifs s s') :
    dE J N s.state x y
        = 2 * J * ((s.state x y : ℤ) : ℚ) * ((sum_neig_spins N s.state x y : ℤ) : ℚ) ∧
    (dE J N s.state x y < 0 → s'.state = flipAt s.state x y) ∧
    (¬ dE J N s.state x y < 0 →
      (((unifs s.unifIdx : ℚ) : ℝ) < Real.exp (((- dE J N s.state x y / T : ℚ) : ℝ)) →
          s'.state = flipAt s.state x y) ∧
      (¬ ((unifs s.unifIdx : ℚ) : ℝ) < Real.exp (((- dE J N s.state x y / T : ℚ) : ℝ)) →
          s'.state = s.state)) := by
  have hx : (sites s.siteIdx).1 = x := by rw [hxy]
  have hy : (sites s.siteIdx).2 = y := by rw [hxy]
  unfold trialStep at h
  rw [hx, hy] at h
  refine ⟨rfl, ?_, ?_⟩
  · intro hd
    rcases h.2.2 with ⟨_, _, hst⟩ | ⟨hd2, _, _⟩
    · exact hst
    · exact absurd hd hd2
  · intro hd
    rcases h.2.2 with ⟨hd2, _, _⟩ | ⟨_, _, hin⟩
    · exact absurd hd2 hd
    constructor
    · intro hc
      rcases hin with ⟨_, hst⟩ | ⟨hc2, _⟩
      · exact hst
      · exact absurd hc hc2
    · intro hc
      rcases hin with ⟨hc2, _⟩ | ⟨_, hst⟩
      · exact absurd hc2 hc
      · exact hst

/-- Witness for C1: a concrete rejected trial on the 1 x 1 all-plus lattice
with J = T = 1, where dE = 8 and the uniform draw 1 is not below
exp(-8). -/
theorem trialStep_metropolis_witness :
    csites cs0.siteIdx = ((0 : ℤ), (0 : ℤ)) ∧
    trialStep 1 1 1 csites cunifs cs0 cs1 ∧
    (dE 1 1 cs0.state 0 0
        = 2 * 1 * ((cs0.state 0 0 : ℤ) : ℚ) * ((sum_neig_spins 1 cs0.state 0 0 : ℤ) : ℚ) ∧
    (dE 1 1 cs0.state 0 0 < 0 → cs1.state = flipAt cs0.state 0 0) ∧
    (¬ dE 1 1 cs0.state 0 0 < 0 →
      (((cunifs cs0.unifIdx : ℚ) : ℝ) < Real.exp (((- dE 1 1 cs0.state 0 0 / 1 : ℚ) : ℝ)) →
          cs1.state = flipAt cs0.state 0 0) ∧
      (¬ ((cunifs cs0.unifIdx : ℚ) : ℝ) < Real.exp (((- dE 1 1 cs0.state 0 0 / 1 : ℚ) : ℝ)) →
          cs1.state = cs0.state))) :=
  ⟨rfl, trialStep_concrete,
    trialStep_metropolis 1 1 1 csites cunifs cs0 cs1 0 0 rfl trialStep_concrete⟩

/-- Claim C2 (code bug): for the uniform all-plus-one lattice with N = 2
and J = 1 the code returns +8 = +2 * N ^ 2, not the value -2 * N ^ 2 = -8
required by the specification; get_state_energy carries no minus sign, so
aligned spins receive the maximal, not the minimal, energy, contradicting
the convention used by the dynamics (dE = 2 J s Sigma treats the aligned
state as the energy minimum). -/
theorem energy_all_plus_sign :
    get_state_energy 2 1 (fun _ _ => 1) = 8 ∧
    get_state_energy 2 1 (fun _ _ => 1) ≠ -8 := by
  have h : (∑ x in Finset.Ico (0 : ℤ) 2, ∑ y in Finset.Ico (0 : ℤ) 2,
      2 * (fun (_ _ : ℤ) => (1 : ℤ)) x y * sum_neig_spins 2 (fun _ _ => 1) x y : ℤ) = 32 := by
    decide
  constructor
  · rw [get_state_energy, h]
    norm_num
  · rw [get_state_energy, h]
    norm_num

/-- Claim C3: every neighbor lookup reads exactly the four sites
((x+1) mod N, y), ((x-1) mod N, y), (x, (y+1) mod N), (x, (y-1) mod N),
where mod is the mathematical non-negative modulus, so the wrapped index of
any integer lies in [0, N), -1 mod N = N - 1, and no index is out of
range. -/
theorem neighbor_indices_spec (N x y z : ℤ) (stt : Lattice) (hN : 0 < N)
    (hx0 : 0 ≤ x) (hx1 : x < N) (hy0 : 0 ≤ y) (hy1 : y < N) :
    sum_neig_spins N stt x y
        = stt ((x + 1) % N) y + stt ((x - 1) % N) y
          + stt x ((y + 1) % N) + stt x ((y - 1) % N) ∧
    (0 ≤ z % N ∧ z % N < N) ∧
    (x + 1) % N = (if x = N - 1 then 0 else x + 1) ∧
    (x - 1) % N = (if x = 0 then N - 1 else x - 1) ∧
    (y + 1) % N = (if y = N - 1 then 0 else y + 1) ∧
    (y - 1) % N = (if y = 0 then N - 1 else y - 1) :=
  ⟨rfl, emod_bounds N z hN, emod_succ_eq N x hx0 hx1, emod_pred_eq N x hx0 hx1,
    emod_succ_eq N y hy0 hy1, emod_pred_eq N y hy0 hy1⟩

/-- Witness for C3: N = 3 at site (0, 2) with probe index z = -1, where the
wrap sends x - 1 = -1 to 2 and y + 1 = 3 to 0. -/
theorem neighbor_indices_spec_witness :
    (0 : ℤ) < 3 ∧ (0 : ℤ) ≤ 0 ∧ (0 : ℤ) < 3 ∧ (0 : ℤ) ≤ 2 ∧ (2 : ℤ) < 3 ∧
    (sum_neig_spins 3 (fun _ _ => 1) 0 2
        = (fun (_ _ : ℤ) => (1 : ℤ)) ((0 + 1) % 3) 2 + (fun (_ _ : ℤ) => (1 : ℤ)) ((0 - 1) % 3) 2
          + (fun (_ _ : ℤ) => (1 : ℤ)) 0 ((2 + 1) % 3) + (fun (_ _ : ℤ) => (1 : ℤ)) 0 ((2 - 1) % 3) ∧
    (0 ≤ (-1 : ℤ) % 3 ∧ (-1 : ℤ) % 3 < 3) ∧
    ((0 : ℤ) + 1) % 3 = (if (0 : ℤ) = 3 - 1 then 0 else 0 + 1) ∧
    ((0 : ℤ) - 1) % 3 = (if (0 : ℤ) = 0 then 3 - 1 else 0 - 1) ∧
    ((2 : ℤ) + 1) % 3 = (if (2 : ℤ) = 3 - 1 then 0 else 2 + 1) ∧
    ((2 : ℤ) - 1) % 3 = (if (2 : ℤ) = 0 then 3 - 1 else 2 - 1)) :=
  ⟨by decide, by decide, by decide, by decide, by decide,
    neighbor_indices_spec 3 0 2 (-1) (fun _ _ => 1) (by decide)
      (by decide) (by decide) (by decide) (by decide)⟩

/-- Claim C4: one call of the advance-one-sweep operation performs exactly
N * N trial evaluations: each trial consumes exactly one site draw from the
random stream (with replacement, not a raster scan), so the site-draw
cursor advances by exactly N.toNat * N.toNat. -/
theorem do_mcs_trial_count (N : ℤ) (J T : ℚ) (sites : ℕ → ℤ × ℤ) (unifs : ℕ → ℚ)
    (s s' : SimState) (h : do_mcs N J T sites unifs s s') :
    s'.siteIdx = s.siteIdx + N.toNat * N.toNat :=
  trials_siteIdx h

/-- Witness for C4: the concrete one-trial sweep at N = 1 advances the
site-draw cursor from 0 to 1. -/
theorem do_mcs_trial_count_witness :
    do_mcs 1 1 1 csites cunifs cs0 cs1 ∧
    cs1.siteIdx = cs0.siteIdx + (1 : ℤ).toNat * (1 : ℤ).toNat :=
  ⟨do_mcs_concrete, do_mcs_trial_count 1 1 1 csites cunifs cs0 cs1 do_mcs_concrete⟩

/-- Counterexample to C5 as stated: a concrete do_mcs call (N = 1) after
which the elapsed sweep count is still 0, not 1; do_mcs never touches the
counter (the run driver sets it externally). -/
theorem do_mcs_mcs_counterexample :
    do_mcs 1 1 1 csites cunifs cs0 cs1 ∧ cs0.mcs = 0 ∧ ¬ cs1.mcs = cs0.mcs + 1 :=
  ⟨do_mcs_concrete, rfl, by decide⟩

/-- Claim C5 (amended): every call of the advance-one-sweep operation
leaves the elapsed sweep count unchanged, so after k sweep calls from a
freshly constructed engine the count still equals its initial value 0. -/
theorem do_mcs_preserves_mcs (N : ℤ) (J T : ℚ) (sites : ℕ → ℤ × ℤ) (unifs : ℕ → ℚ)
    (k : ℕ) (s s' : SimState) (h : doSweeps N J T sites unifs k s s') :
    s'.mcs = s.mcs :=
  doSweeps_mcs h

/-- Witness for the amended C5: after the concrete one-sweep run the count
is still cs0.mcs = 0. -/
theorem do_mcs_preserves_mcs_witness :
    doSweeps 1 1 1 csites cunifs 1 cs0 cs1 ∧ cs1.mcs = cs0.mcs :=
  ⟨doSweeps_concrete,
    do_mcs_preserves_mcs 1 1 1 csites cunifs 1 cs0 cs1 doSweeps_concrete⟩

/-- Claim C6: for every state reachable from a freshly initialized engine
by any number of sweep calls, every lattice cell is exactly +1 or -1:
initialization assigns 2 b - 1 with b in {0, 1}, and each accepted trial
negates one cell in place, preserving the domain. -/
theorem spin_domain_invariant (N : ℤ) (J T : ℚ) (sites : ℕ → ℤ × ℤ) (unifs : ℕ → ℚ)
    (bits : ℤ → ℤ → Fin 2) (k : ℕ) (s' : SimState) (x y : ℤ)
    (h : doSweeps N J T sites unifs k
      { state := init_lattice bits, mcs := 0, siteIdx := 0, unifIdx := 0 } s') :
    s'.state x y = 1 ∨ s'.state x y = -1 :=
  doSweeps_spin h (spinPM1_init bits) x y

/-- Witness for C6: the freshly initialized engine (zero sweeps) with the
constant bit stream has spin +1 at the origin. -/
theorem spin_domain_invariant_witness :
    doSweeps 1 1 1 csites cunifs 0 cInit cInit ∧
    (cInit.state 0 0 = 1 ∨ cInit.state 0 0 = -1) :=
  ⟨rfl, spin_domain_invariant 1 1 1 csites cunifs cbits 0 cInit 0 0 rfl⟩

/-- Counterexample to C7 as stated: construction with N = 0 and T = -1
succeeds and returns a fully initialized engine instead of failing with an
InvalidConfiguration error. -/
theorem construct_no_validation_counterexample :
    (0 : ℤ) ≤ 0 ∧ (-1 : ℚ) ≤ 0 ∧
    construct 0 1 (-1) 1000 (fun _ _ => 0)
      = Except.ok { N := 0, T := -1, J := 1, mt := 1000,
                    state := init_lattice fun _ _ => 0, mcs := 0 } :=
  ⟨le_refl 0, by norm_num, rfl⟩

/-- Claim C7 (amended): engine construction never raises an
InvalidConfiguration error and validates neither N nor T: it fails exactly
when dim is negative, with the ValueError raised by the lattice draw
(numpy rejects negative array dimensions), and for every dim greater than
or equal to 0 and every temperature, including T less than or equal to 0
and dim = 0, it succeeds with the engine fully initialized with the given
parameters, the freshly drawn lattice and sweep count 0. -/
theorem construct_spec (dim : ℤ) (contact_energy temperature : ℚ)
    (max_sim_time : ℤ) (bits : ℤ → ℤ → Fin 2) :
    construct dim contact_energy temperature max_sim_time bits
      = (if dim < 0 then Except.error ConstructError.valueError
          else Except.ok { N := dim, T := temperature, J := contact_energy,
                           mt := max_sim_time, state := init_lattice bits, mcs := 0 }) ∧
    construct dim contact_energy temperature max_sim_time bits
      ≠ Except.error ConstructError.invalidConfiguration := by
  constructor
  · unfold construct init_lattice_checked
    by_cases h : dim < 0
    · rw [if_pos h, if_pos h]
    · rw [if_neg h, if_neg h]
  · unfold construct init_lattice_checked
    by_cases h : dim < 0
    · rw [if_pos h]
      intro hcontra
      exact ConstructError.noConfusion (Except.error.inj hcontra)
    · rw [if_neg h]
      intro hcontra
      exact Except.noConfusion hcontra

/-- Claim C8: the magnetization query returns the sum of all N * N spin
values of the current lattice (it is a pure function of the state), and for
every state reachable from a freshly initialized engine its absolute value
is at most N * N. -/
theorem magnetization_spec (N : ℤ) (J T : ℚ) (sites : ℕ → ℤ × ℤ) (unifs : ℕ → ℚ)
    (bits : ℤ → ℤ → Fin 2) (k : ℕ) (s' : SimState) (hN : 0 ≤ N)
    (h : doSweeps N J T sites unifs k
      { state := init_lattice bits, mcs := 0, siteIdx := 0, unifIdx := 0 } s') :
    get_state_magnetization N s'.state
        = (∑ x in Finset.Ico (0 : ℤ) N, ∑ y in Finset.Ico (0 : ℤ) N, s'.state x y) ∧
    |get_state_magnetization N s'.state| ≤ N * N :=
  ⟨rfl, magnetization_abs_le N s'.state hN (doSweeps_spin h (spinPM1_init bits))⟩

/-- Witness for C8: the freshly initialized 1 x 1 all-plus engine has
magnetization 1, of absolute value at most 1. -/
theorem magnetization_spec_witness :
    (0 : ℤ) ≤ 1 ∧ doSweeps 1 1 1 csites cunifs 0 cInit cInit ∧
    (get_state_magnetization 1 cInit.state
        = (∑ x in Finset.Ico (0 : ℤ) 1, ∑ y in Finset.Ico (0 : ℤ) 1, cInit.state x y) ∧
    |get_state_magnetization 1 cInit.state| ≤ 1 * 1) :=
  ⟨by decide, rfl,
    magnetization_spec 1 1 1 csites cunifs cbits 0 cInit (by decide) rfl⟩

/-- Claim C9: with the random draws fixed (fixed seed) and fixed
parameters, two runs of k sweep calls from the same initial state produce
an identical final lattice state: the sweep relation is deterministic in
its random inputs. -/
theorem determinism_fixed_seed (N : ℤ) (J T : ℚ) (sites : ℕ → ℤ × ℤ) (unifs : ℕ → ℚ)
    (k : ℕ) (s s₁ s₂ : SimState)
    (h₁ : doSweeps N J T sites unifs k s s₁) (h₂ : doSweeps N J T sites unifs k s s₂) :
    s₁.state = s₂.state := by
  rw [doSweeps_det h₁ h₂]

/-- Witness for C9: the concrete one-sweep run, used for both copies. -/
theorem determinism_fixed_seed_witness :
    doSweeps 1 1 1 csites cunifs 1 cs0 cs1 ∧ cs1.state = cs1.state :=
  ⟨doSweeps_concrete,
    determinism_fixed_seed 1 1 1 csites cunifs 1 cs0 cs1 cs1
      doSweeps_concrete doSweeps_concrete⟩

/-- Claim C10: for every lattice the pre-division accumulator of
get_state_energy equals exactly 4 times the sum over the 2 N^2
nearest-neighbor bonds of the spin products, and the returned value equals
exactly J times that bond sum: the division by 4 is exact. -/
theorem energy_bond_sum (N : ℤ) (J : ℚ) (stt : Lattice) :
    (∑ x in Finset.Ico (0 : ℤ) N, ∑ y in Finset.Ico (0 : ℤ) N,
        2 * stt x y * sum_neig_spins N stt x y) = 4 * bondSum N stt ∧
    get_state_energy N J stt = J * bondSum N stt := by
  refine ⟨accum_eq_four_bondSum N stt, ?_⟩
  unfold get_state_energy
  rw [accum_eq_four_bondSum N stt]
  push_cast
  ring

end Ising
